import Mathlib

/-!
Verification development for `python/cuml/dask/datasets/regression.py`.

The file shallowly embeds the four components of that module:

* `generate_chunks_for_qr` — the partition sizing algorithm (nested function
  of `make_low_rank_matrix`), embedded over `ℕ`.  Python's
  `int(total_size / k)` on non-negative integers is floor division, embedded
  as `ℕ` division.
* `make_low_rank_matrix` — embedded at the shape level
  (`make_low_rank_matrix_shape`): its values are orthonormal QR factors,
  which are irrational, but every claim about it concerns shapes.  The
  reduced QR factorization of an `(m, k)` array (dask `tsqr` for tall
  matrices, `sfqr` for short-fat ones, both matching `numpy.linalg.qr` in
  reduced mode) returns a Q factor of shape `(m, min m k)`.
* the singular-value profile of `make_low_rank_matrix`, embedded over `ℝ`
  (`singular_profile`), with real `exp` standing for the floating `cp.exp`.
* `create_rs_generator` — the random-state dispatch, embedded over an
  inductive type of argument kinds carrying the `module.typename` string the
  Python code dispatches on.
* `make_regression` — embedded value-level over `ℚ` (an idealization of the
  floating-point values; only ring operations occur).  The seeded
  RandomSource is modelled by its contract (spec §1: "given a shape and
  chunk layout, produce i.i.d. standard-normal or scaled-normal values
  deterministically for a given seed"): a stream `g : ℕ → ℚ` of standard
  draws consumed left to right, with `rs.normal(scale=s)` drawing `s * g i`.
  The two `np.random.permutation` calls in the shuffle branch draw from
  numpy's global generator, not from `rs`; their results enter the model as
  the explicit arguments `samples_indices` and `features_indices`.
  The low-rank branch (`effective_rank is not None`) delegates to
  `make_low_rank_matrix`, whose values are not rational; the value-level
  embedding covers the well-conditioned branch (`effective_rank = None`),
  which is the branch all value-level claims are about.  `order` and `dtype`
  are carried as parameters; `order` is never read by the source body, and
  `dtype` (a numeric-precision selector) is outside the exact-arithmetic
  model.
-/

/-- Partition sizing: nested helper of `make_low_rank_matrix`
(regression.py lines 77-87).  `int(total_size / n_parts)` and
`int(max(1, total_size / min_size))` are floor divisions on non-negative
integers, embedded as `ℕ` division; the list comprehension
`[min_size for i in range(n_partitions-1)]` is a map over a range. -/
def generate_chunks_for_qr (total_size min_size n_parts : ℕ) : List ℕ :=
  let n_total_per_part := max 1 (total_size / n_parts)
  let min_size' := if n_total_per_part > min_size then n_total_per_part else min_size
  let n_partitions := max 1 (total_size / min_size')
  let rest := total_size % (n_partitions * min_size')
  let chunks_list := (List.range (n_partitions - 1)).map (fun _ => min_size')
  chunks_list ++ [min_size' + rest]

/-- Shape of the Q factor of a reduced QR factorization of an `(m, k)`
array: `(m, min m k)`.  For the tall case dask uses `tsqr`, for the
short-fat case `sfqr`; both return Q with `min m k` columns, as
`numpy.linalg.qr` in reduced mode does. -/
def qr_q_shape (p : ℕ × ℕ) : ℕ × ℕ := (p.1, min p.1 p.2)

/-- Shape of `da.dot a b` for 2-d operands: rows of `a`, columns of `b`. -/
def dot_shape (a b : ℕ × ℕ) : ℕ × ℕ := (a.1, b.2)

/-- Shape-level embedding of `make_low_rank_matrix`
(regression.py lines 90-120).  `u` is the Q factor of the
`(n_samples, n)` draw `m1`, `v` the Q factor of the `(n, n_features)` draw
`m2`; rechunking and the broadcast multiply `u *= s` leave shapes
unchanged, and the result is `da.dot u v`. -/
def make_low_rank_matrix_shape (n_samples n_features n_parts : ℕ) : ℕ × ℕ :=
  let n := min n_samples n_features
  let _chunks1 := generate_chunks_for_qr n_samples n n_parts
  let u := qr_q_shape (n_samples, n)
  let _chunks2 := generate_chunks_for_qr n_features n n_parts
  let v := qr_q_shape (n, n_features)
  dot_shape u v

/-- Singular-value profile of `make_low_rank_matrix`
(regression.py lines 109-115): entry `i` of `local_s = low_rank + tail`,
where `tmp = sing_ind / effective_rank`,
`low_rank = (1 - tail_strength) * exp(-1.0 * tmp ** 2)` and
`tail = tail_strength * exp(-0.1 * tmp)`.  Real arithmetic stands for the
float arithmetic of the source. -/
noncomputable def singular_profile (effective_rank tail_strength : ℝ) (i : ℕ) : ℝ :=
  let tmp := (i : ℝ) / effective_rank
  (1 - tail_strength) * Real.exp (-1.0 * tmp ^ 2) + tail_strength * Real.exp (-0.1 * tmp)

/-- A matrix value: list of rows, each row a list of rationals. -/
abbrev Mat : Type := List (List ℚ)

/-- A row of `c` i.i.d. standard draws taken from the stream `g` starting at
position `pos`. -/
def drawRow (g : ℕ → ℚ) (pos c : ℕ) : List ℚ :=
  (List.range c).map (fun j => g (pos + j))

/-- An `(r, c)` array of i.i.d. standard draws (`rs.standard_normal`) taken
from the stream `g` starting at position `pos`, consumed row-major. -/
def drawMat (g : ℕ → ℚ) (pos r c : ℕ) : Mat :=
  (List.range r).map (fun i => drawRow g (pos + i * c) c)

/-- Scalar multiple of every entry (`100.0 *`, `0.0 *`, noise scaling). -/
def scaleMat (a : ℚ) (m : Mat) : Mat :=
  m.map (fun row => row.map (fun x => a * x))

/-- Broadcast addition of a scalar to every entry (`+ bias`). -/
def addConst (a : ℚ) (m : Mat) : Mat :=
  m.map (fun row => row.map (fun x => x + a))

/-- Entrywise sum of two matrices (`y += noise_draw`). -/
def matAdd (a b : Mat) : Mat :=
  List.zipWith (fun ra rb => List.zipWith (fun x z => x + z) ra rb) a b

/-- Entry `j` of the product of a row with matrix `b`:
`sum_t row[t] * b[t][j]`. -/
def dotEntry (row : List ℚ) (b : Mat) (j : ℕ) : ℚ :=
  (List.zipWith (fun x brow => x * brow.getD j 0) row b).sum

/-- Product `da.dot a b` of an `(r, k)` matrix with a `(k, c)` matrix; `c`
is the column count carried by `b`'s dask shape. -/
def matMul (a b : Mat) (c : ℕ) : Mat :=
  a.map (fun row => (List.range c).map (fun j => dotEntry row b j))

/-- First `k` columns of a matrix (`X[:, :n_informative]`). -/
def takeCols (k : ℕ) (m : Mat) : Mat := m.map (fun row => row.take k)

/-- Row selection by an index list (`X[samples_indices, :]`,
`ground_truth[features_indices, :]`). -/
def selRows (idx : List ℕ) (m : Mat) : Mat := idx.map (fun i => m.getD i [])

/-- Column selection by an index list (`X[:, features_indices]`). -/
def selCols (idx : List ℕ) (m : Mat) : Mat :=
  m.map (fun row => idx.map (fun j => row.getD j 0))

/-- The shuffle block of `make_regression` (regression.py lines 239-246):
apply `samples_indices` to the rows of `X` and of `y`, then apply
`features_indices` to the columns of `X` and to the rows of
`ground_truth`.  Returns the shuffled `(X, y, ground_truth)`. -/
def shuffle_step (X y ground_truth : Mat) (samples_indices features_indices : List ℕ) :
    Mat × Mat × Mat :=
  let X1 := selRows samples_indices X
  let y1 := selRows samples_indices y
  let X2 := selCols features_indices X1
  let gt1 := selRows features_indices ground_truth
  (X2, y1, gt1)

/-- An n-dimensional array value: a shape together with the row-major
flattened data.  Needed because `da.squeeze` changes the rank of `y` and of
the coefficient matrix. -/
structure NDArr : Type where
  shape : List ℕ
  flat : List ℚ
deriving DecidableEq

/-- The `da.squeeze` of an array (numpy semantics: every axis of length 1
is removed; the flattened data is unchanged). -/
def squeezeArr (a : NDArr) : NDArr :=
  { shape := a.shape.filter (fun d => d ≠ 1), flat := a.flat }

/-- View a matrix with the given column count as a 2-d array. -/
def matToArr (m : Mat) (c : ℕ) : NDArr := { shape := [m.length, c], flat := m.flatten }

/-- Parameters of `make_regression` other than the randomness.  `order`
and `dtype` are carried verbatim; the body of the source never reads
`order`, and `dtype` selects a floating precision, which the exact
rational model does not distinguish. -/
structure RegParams : Type where
  n_samples : ℕ
  n_features : ℕ
  n_informative : ℕ
  n_targets : ℕ
  bias : ℚ
  noise : ℚ
  shuffle : Bool
  coef : Bool
  order : String
  dtype : String
deriving DecidableEq

/-- Result of `make_regression`: `X`, the squeezed `y`, and the squeezed
coefficients when `coef=True`. -/
structure RegOut : Type where
  X : Mat
  y : NDArr
  coefOut : Option NDArr
deriving DecidableEq

/-- Clamp of line 224: `n_informative = min(n_features, n_informative)`. -/
def reg_informative (p : RegParams) : ℕ := min p.n_features p.n_informative

/-- The feature matrix draw of the well-conditioned branch
(`effective_rank = None`): `X = rs.standard_normal((n_samples,
n_features), ...)`, the first `n_samples * n_features` stream draws. -/
def reg_X0 (g : ℕ → ℚ) (p : RegParams) : Mat :=
  drawMat g 0 p.n_samples p.n_features

/-- `ground_truth = 100.0 * rs.standard_normal((n_informative, n_targets),
...)`: the next `n_informative * n_targets` stream draws, scaled. -/
def reg_gt0 (g : ℕ → ℚ) (p : RegParams) : Mat :=
  scaleMat 100 (drawMat g (p.n_samples * p.n_features) (reg_informative p) p.n_targets)

/-- `y = da.dot(X[:, :n_informative], ground_truth) + bias`. -/
def reg_y0 (g : ℕ → ℚ) (p : RegParams) : Mat :=
  addConst p.bias (matMul (takeCols (reg_informative p) (reg_X0 g p)) (reg_gt0 g p) p.n_targets)

/-- The coefficient matrix after the zero-padding step: when
`n_informative != n_features`, `zeroes = 0.0 * rs.standard_normal(
(n_features - n_informative, n_targets))` (which consumes stream draws and
scales them all to exactly zero) is concatenated below `ground_truth`. -/
def reg_gt1 (g : ℕ → ℚ) (p : RegParams) : Mat :=
  if reg_informative p ≠ p.n_features then
    reg_gt0 g p ++
      scaleMat 0 (drawMat g (p.n_samples * p.n_features + reg_informative p * p.n_targets)
        (p.n_features - reg_informative p) p.n_targets)
  else reg_gt0 g p

/-- Stream position after the optional `zeroes` draw, where the noise draw
starts. -/
def reg_noise_pos (p : RegParams) : ℕ :=
  p.n_samples * p.n_features + reg_informative p * p.n_targets +
    (if reg_informative p ≠ p.n_features then (p.n_features - reg_informative p) * p.n_targets
      else 0)

/-- `if noise > 0.0: y += rs.normal(scale=noise, size=y.shape)`; a
scaled-normal draw is `noise` times a standard draw of the stream. -/
def reg_y1 (g : ℕ → ℚ) (p : RegParams) : Mat :=
  if p.noise > 0 then
    matAdd (reg_y0 g p) (scaleMat p.noise (drawMat g (reg_noise_pos p) p.n_samples p.n_targets))
  else reg_y0 g p

/-- The `(X, y, ground_truth)` triple after the optional shuffle block:
`samples_indices` and `features_indices` are the values of the two
`np.random.permutation` calls, which draw from numpy's global generator,
not from the seeded RandomSource. -/
def reg_shuffled (g : ℕ → ℚ) (p : RegParams)
    (samples_indices features_indices : List ℕ) : Mat × Mat × Mat :=
  if p.shuffle then
    shuffle_step (reg_X0 g p) (reg_y1 g p) (reg_gt1 g p) samples_indices features_indices
  else (reg_X0 g p, reg_y1 g p, reg_gt1 g p)

/-- Value-level embedding of `make_regression` (regression.py lines
123-255) on its well-conditioned branch (`effective_rank = None`; the
other branch delegates to `make_low_rank_matrix`, modelled above at shape
level since its orthonormal factors are irrational).  `g` is the seeded
RandomSource's stream of standard draws, consumed in source order through
the stages `reg_X0`, `reg_gt0`, `reg_gt1`, `reg_y1` above.  Rechunk calls
do not change values and are omitted.  `y = da.squeeze(y)` always; the
coefficient matrix is squeezed and returned only when `coef` is true. -/
def make_regression (g : ℕ → ℚ) (p : RegParams)
    (samples_indices features_indices : List ℕ) : RegOut :=
  let s := reg_shuffled g p samples_indices features_indices
  if p.coef then
    { X := s.1, y := squeezeArr (matToArr s.2.1 p.n_targets),
      coefOut := some (squeezeArr (matToArr s.2.2 p.n_targets)) }
  else
    { X := s.1, y := squeezeArr (matToArr s.2.1 p.n_targets), coefOut := none }

/-- Kinds of value a caller can pass as `random_state`, together with the
`module.typename` string Python's introspection produces for it
(`create_rs_generator` dispatches on that string).  The first four
constructors are the four recognized kinds; `otherKind s` is a value of
any other type, whose type string `s` is that of none of the recognized
kinds. -/
inductive RandomStateArg : Type where
  | noneVal : RandomStateArg
  | intSeed (s : ℤ) : RandomStateArg
  | cupyRandomState (handle : ℕ) : RandomStateArg
  | daskRandomState (handle : ℕ) : RandomStateArg
  | otherKind (tyStr : String) : RandomStateArg
deriving DecidableEq

/-- The `rs_type` string computed at regression.py lines 24-27. -/
def rsTypeString : RandomStateArg → String
  | .noneVal => "NoneType"
  | .intSeed _ => "int"
  | .cupyRandomState _ => "cupy.random.generator.RandomState"
  | .daskRandomState _ => "dask.array.random.RandomState"
  | .otherKind s => s

/-- The distributed RandomSource built by `create_rs_generator`: a
`da.random.RandomState`, recorded here by the argument it was resolved
from. -/
structure DaskRandomState : Type where
  resolvedFrom : RandomStateArg
deriving DecidableEq

/-- Embedding of `create_rs_generator` (regression.py lines 23-40): the
if/elif chain on `rs_type`, raising `ValueError` (modelled as `.error`)
for any unrecognized type string. -/
def create_rs_generator (random_state : RandomStateArg) : Except String DaskRandomState :=
  let rs_type := rsTypeString random_state
  if rs_type = "NoneType" ∨ rs_type = "int" then
    .ok { resolvedFrom := random_state }
  else if rs_type = "cupy.random.generator.RandomState" then
    .ok { resolvedFrom := random_state }
  else if rs_type = "dask.array.random.RandomState" then
    .ok { resolvedFrom := random_state }
  else
    .error "random_state type must be int, CuPy RandomState or Dask RandomState"

/-- Claim C1: for `total_size ≥ 1`, `n_parts ≥ 1`, `min_size ≤ total_size`,
`generate_chunks_for_qr` returns a non-empty list summing exactly to
`total_size` whose entries are all at least the effective minimum block
size `max min_size (max 1 (total_size / n_parts))`, hence at least
`min_size`. -/
theorem generate_chunks_for_qr_partitions (total_size min_size n_parts : ℕ)
    (h1 : 1 ≤ total_size) (h2 : 1 ≤ n_parts) (h3 : min_size ≤ total_size) :
    generate_chunks_for_qr total_size min_size n_parts ≠ [] ∧
    (generate_chunks_for_qr total_size min_size n_parts).sum = total_size ∧
    ∀ x ∈ generate_chunks_for_qr total_size min_size n_parts,
      max min_size (max 1 (total_size / n_parts)) ≤ x ∧ min_size ≤ x := by
  have hm : (if max 1 (total_size / n_parts) > min_size
      then max 1 (total_size / n_parts) else min_size)
      = max min_size (max 1 (total_size / n_parts)) := by
    rcases le_or_lt (max 1 (total_size / n_parts)) min_size with h | h
    · simp [Nat.not_lt.mpr h, Nat.max_eq_left h]
    · simp [h, Nat.max_eq_right (Nat.le_of_lt h)]
  set m := max min_size (max 1 (total_size / n_parts)) with hm_def
  have hm1 : 1 ≤ m := le_trans (le_max_left 1 _) (le_max_right min_size _)
  have hmle : m ≤ total_size := by
    apply Nat.max_le.mpr
    exact ⟨h3, Nat.max_le.mpr ⟨h1, Nat.div_le_self _ _⟩⟩
  set p := total_size / m with hp_def
  have hp1 : 1 ≤ p := (Nat.one_le_div_iff hm1).mpr hmle
  have hp : max 1 p = p := Nat.max_eq_right hp1
  have key : generate_chunks_for_qr total_size min_size n_parts
      = (List.range (p - 1)).map (fun _ => m) ++ [m + total_size % (p * m)] := by
    simp only [generate_chunks_for_qr]
    rw [hm, ← hp_def, hp]
  rw [key]
  have hle : p * m ≤ total_size := by
    rw [hp_def]; exact Nat.div_mul_le_self total_size m
  have hlt : total_size < p * m + m := by
    have hdm := Nat.div_add_mod total_size m
    have hmod_lt := Nat.mod_lt total_size (show 0 < m from hm1)
    have hcomm : p * m = m * p := Nat.mul_comm p m
    rw [hp_def] at hcomm ⊢
    linarith
  have hpm1 : 1 ≤ p * m := Nat.one_le_iff_ne_zero.mpr (by positivity)
  have hmod : total_size % (p * m) = total_size - p * m := by
    rw [Nat.mod_eq_sub_mod hle, Nat.mod_eq_of_lt]
    have : m ≤ p * m := Nat.le_mul_of_pos_left m hp1
    omega
  refine ⟨by simp, ?_, ?_⟩
  · rw [hmod]
    have hsum : ((List.range (p - 1)).map (fun _ => m)).sum = (p - 1) * m := by
      rw [List.map_const', List.sum_replicate, List.length_range, smul_eq_mul]
    rw [List.sum_append, hsum, List.sum_cons, List.sum_nil]
    have : (p - 1) * m + m = p * m := by
      have : p - 1 + 1 = p := Nat.succ_pred_eq_of_pos hp1
      calc (p - 1) * m + m = (p - 1 + 1) * m := by ring
        _ = p * m := by rw [this]
    omega
  · intro x hx
    rw [List.mem_append] at hx
    have hxm : m ≤ x := by
      rcases hx with hx | hx
      · rcases List.mem_map.mp hx with ⟨_, _, rfl⟩; exact le_refl m
      · simp only [List.mem_singleton] at hx
        omega
    exact ⟨hxm, le_trans (le_max_left _ _) hxm⟩

/-- Claim C1 witness: the concrete scenario
`generate_chunks_for_qr 100 30 3 = [33, 33, 34]` satisfies the partition
properties. -/
theorem generate_chunks_for_qr_partitions_witness :
    generate_chunks_for_qr 100 30 3 ≠ [] ∧
    (generate_chunks_for_qr 100 30 3).sum = 100 ∧
    ∀ x ∈ generate_chunks_for_qr 100 30 3,
      max 30 (max 1 (100 / 3)) ≤ x ∧ 30 ≤ x :=
  generate_chunks_for_qr_partitions 100 30 3 (by decide) (by decide) (by decide)

/-- Claim C5: when `1 ≤ total_size` is strictly below the effective minimum
block size `max min_size (max 1 (total_size / n_parts))`, the algorithm
emits a single block of size `effective_min + total_size`, which exceeds
`total_size`, so the sum of the output exceeds `total_size`. -/
theorem generate_chunks_for_qr_degenerate (total_size min_size n_parts : ℕ)
    (h1 : 1 ≤ total_size)
    (h2 : total_size < max min_size (max 1 (total_size / n_parts))) :
    generate_chunks_for_qr total_size min_size n_parts
      = [max min_size (max 1 (total_size / n_parts)) + total_size] ∧
    total_size < max min_size (max 1 (total_size / n_parts)) + total_size ∧
    total_size < (generate_chunks_for_qr total_size min_size n_parts).sum := by
  have hm : (if max 1 (total_size / n_parts) > min_size
      then max 1 (total_size / n_parts) else min_size)
      = max min_size (max 1 (total_size / n_parts)) := by
    rcases le_or_lt (max 1 (total_size / n_parts)) min_size with h | h
    · simp [Nat.not_lt.mpr h, Nat.max_eq_left h]
    · simp [h, Nat.max_eq_right (Nat.le_of_lt h)]
  set m := max min_size (max 1 (total_size / n_parts)) with hm_def
  have hm1 : 1 ≤ m := le_trans (le_max_left 1 _) (le_max_right min_size _)
  have hdiv : total_size / m = 0 := Nat.div_eq_of_lt h2
  have hL : generate_chunks_for_qr total_size min_size n_parts = [m + total_size] := by
    have key : generate_chunks_for_qr total_size min_size n_parts
        = (List.range (max 1 (total_size / m) - 1)).map (fun _ => m)
          ++ [m + total_size % (max 1 (total_size / m) * m)] := by
      simp only [generate_chunks_for_qr]
      rw [hm]
    rw [key, hdiv]
    simp [Nat.mod_eq_of_lt h2]
  refine ⟨hL, by omega, ?_⟩
  rw [hL]
  simp only [List.sum_cons, List.sum_nil]
  omega

/-- Claim C5 witness: `generate_chunks_for_qr 5 10 1 = [15]`, a single
block of `10 + 5` exceeding the total `5`. -/
theorem generate_chunks_for_qr_degenerate_witness :
    generate_chunks_for_qr 5 10 1 = [max 10 (max 1 (5 / 1)) + 5] ∧
    5 < max 10 (max 1 (5 / 1)) + 5 ∧
    5 < (generate_chunks_for_qr 5 10 1).sum :=
  generate_chunks_for_qr_degenerate 5 10 1 (by decide) (by decide)

/-- Claim C2: evaluation of the low-rank synthesizer's shape at
`n_samples = 2`, `n_features = 3`, `n_parts = 1`.  The wide `(2, 3)` draw
`m2` is fed to QR untransposed, so its Q factor `v` has shape `(2, 2)`,
and the returned product has shape `(2, 2)` — not the `(2, 3)` the
docstring ("X : Dask-CuPy array of shape [n_samples, n_features]") and the
claim state. -/
theorem make_low_rank_matrix_shape_failing :
    make_low_rank_matrix_shape 2 3 1 = (2, 2) ∧
    qr_q_shape (min 2 3, 3) = (2, 2) ∧ ((2, 2) : ℕ × ℕ) ≠ (2, 3) := by
  refine ⟨rfl, rfl, by decide⟩

/-- Helper: length of a standard-normal draw. -/
theorem drawMat_length (g : ℕ → ℚ) (pos r c : ℕ) : (drawMat g pos r c).length = r := by
  simp [drawMat]

/-- Helper: every row of a draw has the requested column count. -/
theorem drawMat_row_length (g : ℕ → ℚ) (pos r c : ℕ) :
    ∀ row ∈ drawMat g pos r c, row.length = c := by
  intro row hrow
  simp only [drawMat, List.mem_map] at hrow
  obtain ⟨i, _, rfl⟩ := hrow
  simp [drawRow]

/-- Helper: scaling preserves the row count. -/
theorem scaleMat_length (a : ℚ) (m : Mat) : (scaleMat a m).length = m.length := by
  simp [scaleMat]

/-- Helper: scaling preserves every row length. -/
theorem scaleMat_row_length (a : ℚ) (m : Mat) (c : ℕ) (h : ∀ row ∈ m, row.length = c) :
    ∀ row ∈ scaleMat a m, row.length = c := by
  intro row hrow
  simp only [scaleMat, List.mem_map] at hrow
  obtain ⟨r, hr, rfl⟩ := hrow
  simp [h r hr]

/-- Helper: the rows of `y` before squeezing: `reg_y1` has `n_samples`
rows. -/
theorem reg_y1_length (g : ℕ → ℚ) (p : RegParams) : (reg_y1 g p).length = p.n_samples := by
  have h0 : (reg_y0 g p).length = p.n_samples := by
    simp [reg_y0, addConst, matMul, takeCols, reg_X0, drawMat_length, drawMat]
  by_cases hn : p.noise > 0
  · simp [reg_y1, hn, matAdd, h0, scaleMat_length, drawMat_length]
  · simp [reg_y1, hn, h0]

/-- Claim C9: `create_rs_generator` accepts exactly the four recognized
kinds of `random_state` — absent (`None`), integer seed, CuPy
`RandomState`, Dask `RandomState` — returning a distributed RandomSource,
and raises (`ValueError`) at resolution time on a value of any other kind,
i.e. one whose type string is none of the recognized four. -/
theorem create_rs_generator_dispatch (a : RandomStateArg)
    (hother : ∀ s, a = .otherKind s →
      s ≠ "NoneType" ∧ s ≠ "int" ∧ s ≠ "cupy.random.generator.RandomState" ∧
        s ≠ "dask.array.random.RandomState") :
    ((∃ s, a = .otherKind s) → ∃ e, create_rs_generator a = .error e) ∧
    ((∀ s, a ≠ .otherKind s) → ∃ r, create_rs_generator a = .ok r) := by
  constructor
  · rintro ⟨s, rfl⟩
    obtain ⟨h1, h2, h3, h4⟩ := hother s rfl
    exact ⟨"random_state type must be int, CuPy RandomState or Dask RandomState",
      by simp [create_rs_generator, rsTypeString, h1, h2, h3, h4]⟩
  · intro h
    cases a with
    | noneVal =>
      exact ⟨{ resolvedFrom := .noneVal }, by simp [create_rs_generator, rsTypeString]⟩
    | intSeed s =>
      exact ⟨{ resolvedFrom := .intSeed s }, by simp [create_rs_generator, rsTypeString]⟩
    | cupyRandomState hd =>
      exact ⟨{ resolvedFrom := .cupyRandomState hd },
        by simp [create_rs_generator, rsTypeString]⟩
    | daskRandomState hd =>
      exact ⟨{ resolvedFrom := .daskRandomState hd },
        by simp [create_rs_generator, rsTypeString]⟩
    | otherKind s => exact absurd rfl (h s)

/-- Claim C9 witness: a NumPy `RandomState` (type string
`numpy.random.mtrand.RandomState`, not one of the recognized four) is
rejected with an error, and an integer seed is accepted. -/
theorem create_rs_generator_dispatch_witness :
    (∃ e, create_rs_generator (.otherKind "numpy.random.mtrand.RandomState") = .error e) ∧
    (∃ r, create_rs_generator (.intSeed 42) = .ok r) := by
  constructor
  · exact (create_rs_generator_dispatch (.otherKind "numpy.random.mtrand.RandomState")
      (by intro s hs; cases hs; exact ⟨by decide, by decide, by decide, by decide⟩)).1
      ⟨_, rfl⟩
  · exact (create_rs_generator_dispatch (.intSeed 42) (by intro s hs; cases hs)).2
      (by intro s hs; cases hs)

/-- Claim C10: the `order` parameter of `make_regression` is accepted but
never read by the body, so every returned value (`X`, `y`, and the
optional coefficients) is identical across calls that differ only in
`order`. -/
theorem make_regression_order_irrelevant (g : ℕ → ℚ) (p : RegParams) (o1 o2 : String)
    (samples_indices features_indices : List ℕ) :
    make_regression g { p with order := o1 } samples_indices features_indices
      = make_regression g { p with order := o2 } samples_indices features_indices := rfl

/-- Claim C10 witness: identical outputs at a concrete instance differing
only in `order`. -/
theorem make_regression_order_irrelevant_witness :
    make_regression (fun i => (i : ℚ))
        { n_samples := 2, n_features := 2, n_informative := 1, n_targets := 1,
          bias := 1, noise := 0, shuffle := false, coef := true,
          order := "F", dtype := "float32" } [] []
      = make_regression (fun i => (i : ℚ))
        { n_samples := 2, n_features := 2, n_informative := 1, n_targets := 1,
          bias := 1, noise := 0, shuffle := false, coef := true,
          order := "C", dtype := "float32" } [] [] := by
  exact make_regression_order_irrelevant (fun i => (i : ℚ))
    { n_samples := 2, n_features := 2, n_informative := 1, n_targets := 1,
      bias := 1, noise := 0, shuffle := false, coef := true,
      order := "X", dtype := "float32" } "F" "C" [] []

/-- Claim C4 counterexample: with `shuffle=True`, two calls with the same
seeded stream and identical parameters disagree whenever numpy's global
(unseeded) generator yields different sample permutations to the two
calls: with `n_samples = 2` the global generator returns `[0, 1]` or
`[1, 0]`, and the resulting `X` (hence the output) differs.  So
bit-identical reproducibility is not guaranteed by the seed alone. -/
theorem make_regression_shuffle_nondeterministic :
    make_regression (fun i => (i : ℚ))
        { n_samples := 2, n_features := 1, n_informative := 1, n_targets := 1,
          bias := 0, noise := 0, shuffle := true, coef := false,
          order := "F", dtype := "float32" } [0, 1] [0]
      ≠ make_regression (fun i => (i : ℚ))
        { n_samples := 2, n_features := 1, n_informative := 1, n_targets := 1,
          bias := 0, noise := 0, shuffle := true, coef := false,
          order := "F", dtype := "float32" } [1, 0] [0] := by
  decide

/-- Claim C4 amended: with `shuffle=False` the output is a function of the
seeded stream and the parameters alone — it does not depend on the state
of numpy's global generator (modelled by the permutation arguments), so
two calls with identical integer seed and identical other parameters are
bit-identical.  With `shuffle=True` this holds only if the two calls also
receive identical global-generator permutations. -/
theorem make_regression_deterministic_no_shuffle (g : ℕ → ℚ) (p : RegParams)
    (si1 fi1 si2 fi2 : List ℕ) (h : p.shuffle = false) :
    make_regression g p si1 fi1 = make_regression g p si2 fi2 := by
  by_cases hc : p.coef <;> simp [make_regression, reg_shuffled, h, hc]

/-- Claim C4 amended witness: concrete no-shuffle call is independent of
the ambient permutations. -/
theorem make_regression_deterministic_no_shuffle_witness :
    make_regression (fun i => (i : ℚ))
        { n_samples := 2, n_features := 1, n_informative := 1, n_targets := 1,
          bias := 0, noise := 0, shuffle := false, coef := false,
          order := "F", dtype := "float32" } [0, 1] [0]
      = make_regression (fun i => (i : ℚ))
        { n_samples := 2, n_features := 1, n_informative := 1, n_targets := 1,
          bias := 0, noise := 0, shuffle := false, coef := false,
          order := "F", dtype := "float32" } [1, 0] [0] :=
  make_regression_deterministic_no_shuffle (fun i => (i : ℚ)) _ [0, 1] [0] [1, 0] [0] rfl

/-- Claim C3 counterexample: at `n_samples = 1, n_targets = 1` the
returned `y` has shape `()` — a 0-d scalar — not the `(n_samples,)` the
claim states, because `da.squeeze` removes every axis of length 1, not
only the trailing target axis. -/
theorem make_regression_y_shape_counterexample :
    (make_regression (fun _ => (0 : ℚ))
        { n_samples := 1, n_features := 1, n_informative := 1, n_targets := 1,
          bias := 0, noise := 0, shuffle := false, coef := false,
          order := "F", dtype := "float32" } [] []).y.shape = [] ∧
    ([] : List ℕ) ≠ [1] := by
  constructor
  · decide
  · decide

/-- Claim C3 amended: provided `n_samples ≠ 1` (and the sample permutation
has the right length when shuffling), the returned `y` has shape
`(n_samples,)` when `n_targets = 1` and `(n_samples, n_targets)`
otherwise; when `n_samples = 1` the sample axis is dropped as well, since
the code squeezes every singleton axis of `y`. -/
theorem make_regression_y_shape (g : ℕ → ℚ) (p : RegParams)
    (samples_indices features_indices : List ℕ)
    (hsi : p.shuffle = true → samples_indices.length = p.n_samples)
    (hns : p.n_samples ≠ 1) :
    (make_regression g p samples_indices features_indices).y.shape
      = if p.n_targets = 1 then [p.n_samples] else [p.n_samples, p.n_targets] := by
  have hy : (make_regression g p samples_indices features_indices).y
      = squeezeArr (matToArr (reg_shuffled g p samples_indices features_indices).2.1
          p.n_targets) := by
    by_cases hc : p.coef <;> simp [make_regression, hc]
  have hlen : (reg_shuffled g p samples_indices features_indices).2.1.length
      = p.n_samples := by
    by_cases hs : p.shuffle
    · simp [reg_shuffled, hs, shuffle_step, selRows, hsi hs]
    · simp [reg_shuffled, hs, reg_y1_length]
  rw [hy]
  simp only [squeezeArr, matToArr, hlen]
  by_cases ht : p.n_targets = 1
  · simp [List.filter, ht, hns]
  · simp [List.filter, ht, hns]

/-- Claim C3 amended witness: at `n_samples = 3` the shapes are `(3,)` for
one target and `(3, 2)` for two targets. -/
theorem make_regression_y_shape_witness :
    (make_regression (fun i => (i : ℚ))
        { n_samples := 3, n_features := 2, n_informative := 1, n_targets := 1,
          bias := 0, noise := 0, shuffle := false, coef := false,
          order := "F", dtype := "float32" } [] []).y.shape = [3] ∧
    (make_regression (fun i => (i : ℚ))
        { n_samples := 3, n_features := 2, n_informative := 1, n_targets := 2,
          bias := 0, noise := 0, shuffle := false, coef := false,
          order := "F", dtype := "float32" } [] []).y.shape = [3, 2] := by
  constructor
  · exact make_regression_y_shape (fun i => (i : ℚ)) _ [] []
      (by intro h; cases h) (by decide)
  · exact make_regression_y_shape (fun i => (i : ℚ)) _ [] []
      (by intro h; cases h) (by decide)

/-- Helper: `getD` through a scalar-multiplication map. -/
theorem map_mul_getD (a : ℚ) (l : List ℚ) (t : ℕ) :
    (l.map (fun x => a * x)).getD t 0 = a * l.getD t 0 := by
  rcases lt_or_ge t l.length with h | h
  · rw [List.getD_eq_getElem _ _ (by simpa using h), List.getD_eq_getElem _ _ h,
      List.getElem_map]
  · rw [List.getD_eq_default _ _ (by simpa using h), List.getD_eq_default _ _ h, mul_zero]

/-- Helper: row `j` of a scaled matrix. -/
theorem scaleMat_getD (a : ℚ) (m : Mat) (j : ℕ) :
    (scaleMat a m).getD j [] = (m.getD j []).map (fun x => a * x) := by
  rcases lt_or_ge j m.length with h | h
  · rw [List.getD_eq_getElem _ _ (by simpa [scaleMat] using h), List.getD_eq_getElem _ _ h]
    simp [scaleMat]
  · rw [List.getD_eq_default _ _ (by simpa [scaleMat] using h), List.getD_eq_default _ _ h]
    simp

/-- Helper: entry `(j, t)` of a standard-normal draw is stream value
`pos + j * c + t`. -/
theorem drawMat_entry (g : ℕ → ℚ) (pos r c j t : ℕ) (hj : j < r) (ht : t < c) :
    ((drawMat g pos r c).getD j []).getD t 0 = g (pos + j * c + t) := by
  have hj' : j < (drawMat g pos r c).length := by rw [drawMat_length]; exact hj
  rw [List.getD_eq_getElem _ _ hj']
  simp only [drawMat, List.getElem_map, List.getElem_range]
  have ht' : t < (drawRow g (pos + j * c) c).length := by simp [drawRow]; exact ht
  rw [List.getD_eq_getElem _ _ ht']
  simp [drawRow, Nat.add_assoc]

/-- Helper: indexing into the row-major flattening of a matrix whose rows
all have length `c`. -/
theorem flatten_getD (L : Mat) (c : ℕ) (hc : ∀ row ∈ L, row.length = c)
    (j t : ℕ) (hj : j < L.length) (ht : t < c) :
    L.flatten.getD (j * c + t) 0 = (L.getD j []).getD t 0 := by
  induction L generalizing j with
  | nil => simp at hj
  | cons r L ih =>
    have hr : r.length = c := hc r (List.mem_cons_self r L)
    cases j with
    | zero =>
      simp only [List.flatten_cons, Nat.zero_mul, Nat.zero_add, List.getD_cons_zero]
      exact List.getD_append _ _ _ _ (by omega)
    | succ j =>
      simp only [List.flatten_cons, List.getD_cons_succ]
      have hle : r.length ≤ (j + 1) * c + t := by
        have : c ≤ (j + 1) * c := Nat.le_mul_of_pos_left c (Nat.succ_pos j)
        omega
      rw [List.getD_append_right _ _ _ _ hle]
      have harith : (j + 1) * c + t - r.length = j * c + t := by
        have : (j + 1) * c = j * c + c := by ring
        omega
      rw [harith]
      exact ih (fun row hrow => hc row (List.mem_cons_of_mem r hrow)) j
        (by simpa using hj)

/-- Helper: `reg_gt0` has `n_informative` rows of length `n_targets`. -/
theorem reg_gt0_length (g : ℕ → ℚ) (p : RegParams) :
    (reg_gt0 g p).length = reg_informative p := by
  simp [reg_gt0, scaleMat_length, drawMat_length]

/-- Helper: the padded coefficient matrix has `n_features` rows. -/
theorem reg_gt1_length (g : ℕ → ℚ) (p : RegParams) :
    (reg_gt1 g p).length = p.n_features := by
  have hni : reg_informative p ≤ p.n_features := min_le_left _ _
  by_cases h : reg_informative p ≠ p.n_features
  · simp only [reg_gt1, if_pos h, List.length_append, reg_gt0_length, scaleMat_length,
      drawMat_length]
    omega
  · push_neg at h
    simp [reg_gt1, h, reg_gt0_length]

/-- Helper: every row of the padded coefficient matrix has length
`n_targets`. -/
theorem reg_gt1_row_length (g : ℕ → ℚ) (p : RegParams) :
    ∀ row ∈ reg_gt1 g p, row.length = p.n_targets := by
  intro row hrow
  have hgt0 : ∀ r ∈ reg_gt0 g p, r.length = p.n_targets :=
    scaleMat_row_length 100 _ _ (drawMat_row_length g _ _ _)
  by_cases h : reg_informative p ≠ p.n_features
  · simp only [reg_gt1, if_pos h, List.mem_append] at hrow
    rcases hrow with hrow | hrow
    · exact hgt0 row hrow
    · exact scaleMat_row_length 0 _ _ (drawMat_row_length g _ _ _) row hrow
  · simp only [reg_gt1, if_neg h] at hrow
    exact hgt0 row hrow

/-- Claim C6 counterexample: with `shuffle=True` the feature permutation is
applied to the rows of the coefficient matrix, so the zero rows need not
sit at indices `n_informative..n_features-1`: with `n_features = 2`,
`n_informative = 1` and feature permutation `[1, 0]`, entry 1 of the
returned coefficient vector is `100` (a scaled informative draw), not
zero. -/
theorem make_regression_coefficients_counterexample :
    ((make_regression (fun _ => (1 : ℚ))
        { n_samples := 1, n_features := 2, n_informative := 1, n_targets := 1,
          bias := 0, noise := 0, shuffle := true, coef := true,
          order := "F", dtype := "float32" } [0] [1, 0]).coefOut.getD
      { shape := [], flat := [] }).flat.getD 1 0 = 100 ∧ (100 : ℚ) ≠ 0 := by
  constructor
  · simp [make_regression, reg_shuffled, reg_gt1, reg_gt0, reg_y1, reg_y0, reg_X0,
      reg_informative, reg_noise_pos, drawMat, drawRow, scaleMat, matMul, dotEntry,
      takeCols, addConst, matAdd, shuffle_step, selRows, selCols, squeezeArr, matToArr,
      List.range_succ]
  · norm_num

/-- Claim C6 amended: when the shuffle is not requested and coefficients
are, every entry of rows `n_informative..n_features-1` of the returned
coefficient matrix is exactly zero (the `0.0 *` scaling of the padding
draw), and every entry of the informative rows `j < n_informative` is
`100` times the corresponding stream draw — so the coefficient vector ends
in `n_features - n_informative` zero rows, and those zeros are exactly the
trailing zeros whenever the last informative draw is nonzero.  Under
`shuffle=True` the same rows appear permuted by the feature
permutation. -/
theorem make_regression_zero_coefficients (g : ℕ → ℚ) (p : RegParams)
    (samples_indices features_indices : List ℕ)
    (hsh : p.shuffle = false) (hc : p.coef = true) :
    ∃ arr, (make_regression g p samples_indices features_indices).coefOut = some arr ∧
      (∀ j t, reg_informative p ≤ j → j < p.n_features → t < p.n_targets →
        arr.flat.getD (j * p.n_targets + t) 0 = 0) ∧
      (∀ j t, j < reg_informative p → t < p.n_targets →
        arr.flat.getD (j * p.n_targets + t) 0
          = 100 * g (p.n_samples * p.n_features + j * p.n_targets + t)) := by
  refine ⟨squeezeArr (matToArr (reg_gt1 g p) p.n_targets), ?_, ?_, ?_⟩
  · simp [make_regression, reg_shuffled, hsh, hc]
  · intro j t hj1 hj2 ht
    have hj : j < (reg_gt1 g p).length := by rw [reg_gt1_length]; exact hj2
    have hflat : (squeezeArr (matToArr (reg_gt1 g p) p.n_targets)).flat
        = (reg_gt1 g p).flatten := rfl
    rw [hflat, flatten_getD _ _ (reg_gt1_row_length g p) j t hj ht]
    have hne : reg_informative p ≠ p.n_features := by omega
    have hlen0 : (reg_gt0 g p).length = reg_informative p := reg_gt0_length g p
    simp only [reg_gt1, if_pos hne]
    rw [List.getD_append_right _ _ _ _ (by omega), hlen0, scaleMat_getD, map_mul_getD,
      zero_mul]
  · intro j t hj ht
    have hj' : j < (reg_gt1 g p).length := by
      rw [reg_gt1_length]
      exact lt_of_lt_of_le hj (min_le_left _ _)
    have hflat : (squeezeArr (matToArr (reg_gt1 g p) p.n_targets)).flat
        = (reg_gt1 g p).flatten := rfl
    rw [hflat, flatten_getD _ _ (reg_gt1_row_length g p) j t hj' ht]
    have hlen0 : (reg_gt0 g p).length = reg_informative p := reg_gt0_length g p
    have hrow : (reg_gt1 g p).getD j [] = (reg_gt0 g p).getD j [] := by
      by_cases h : reg_informative p ≠ p.n_features
      · simp only [reg_gt1, if_pos h]
        exact List.getD_append _ _ _ _ (by omega)
      · simp [reg_gt1, h]
    rw [hrow]
    simp only [reg_gt0, scaleMat_getD, map_mul_getD]
    rw [drawMat_entry g _ _ _ j t hj ht]

/-- Claim C6 amended witness: the concrete scenario `n_features = 8`,
`n_informative = 3`, one target, no shuffle — entries 3..7 of the returned
coefficient vector are zero and entries 0..2 are `100` times a (here
nonzero) draw, so the vector has exactly 5 trailing zeros. -/
theorem make_regression_zero_coefficients_witness :
    ∃ arr, (make_regression (fun _ => (1 : ℚ))
        { n_samples := 2, n_features := 8, n_informative := 3, n_targets := 1,
          bias := 0, noise := 0, shuffle := false, coef := true,
          order := "F", dtype := "float32" } [] []).coefOut = some arr ∧
      (∀ j t, 3 ≤ j → j < 8 → t < 1 → arr.flat.getD (j * 1 + t) 0 = 0) ∧
      (∀ j t, j < 3 → t < 1 → arr.flat.getD (j * 1 + t) 0 = 100 * 1) :=
  make_regression_zero_coefficients (fun _ => (1 : ℚ))
    { n_samples := 2, n_features := 8, n_informative := 3, n_targets := 1,
      bias := 0, noise := 0, shuffle := false, coef := true,
      order := "F", dtype := "float32" } [] [] rfl rfl

/-- Helper: selecting rows by the full index range is the identity. -/
theorem getD_range_map {α : Type} (l : List α) (d : α) :
    (List.range l.length).map (fun i => l.getD i d) = l := by
  induction l with
  | nil => simp
  | cons a l ih =>
    rw [List.length_cons, List.range_succ_eq_map, List.map_cons, List.map_map]
    have hcomp : ((fun i => (a :: l).getD i d) ∘ Nat.succ) = fun i => l.getD i d := by
      funext i
      simp
    rw [List.getD_cons_zero, hcomp, ih]

/-- Helper: selecting rows by any permutation of the full index range
preserves the multiset of rows. -/
theorem selRows_perm_multiset (m : Mat) (idx : List ℕ)
    (h : idx.Perm (List.range m.length)) :
    ((selRows idx m : Mat) : Multiset (List ℚ)) = (m : Multiset (List ℚ)) := by
  have h2 : (selRows idx m).Perm (selRows (List.range m.length) m) :=
    h.map (fun i => m.getD i [])
  have h3 : selRows (List.range m.length) m = m := getD_range_map m []
  rw [h3] at h2
  exact Multiset.coe_eq_coe.mpr h2

/-- Claim C7 counterexample: the multiset of rows of `X` is NOT unchanged
by the full shuffle, because the feature permutation reorders the entries
inside every row: shuffling `X = [[1, 2]]` with sample permutation `[0]`
and feature permutation `[1, 0]` yields `[[2, 1]]`, whose row multiset
differs from that of `X`. -/
theorem shuffle_step_multiset_counterexample :
    ¬ ((((shuffle_step [[1, 2]] [[3]] [[4], [5]] [0] [1, 0]).1 : Mat) :
        Multiset (List ℚ))
      = (([[1, 2]] : Mat) : Multiset (List ℚ))) := by
  decide

/-- Claim C7 amended: the shuffle applies the one sample permutation
identically to the rows of `X` and of `y`, and the one feature permutation
identically to the columns of `X` and the rows of the coefficient matrix,
so the coefficient-to-feature correspondence is preserved (column `j` of
the final `X` is original column `features_indices[j]`, whose coefficient
row is row `j` of the final coefficient matrix).  The multiset of rows of
`X` is unchanged by the sample permutation alone; the final rows of `X`
are the original rows with entries reordered by the feature permutation
(so the full shuffle preserves the row multiset only up to that within-row
reordering). -/
theorem shuffle_step_spec (X y ground_truth : Mat) (samples_indices features_indices : List ℕ)
    (hsi : samples_indices.Perm (List.range X.length)) :
    ((shuffle_step X y ground_truth samples_indices features_indices).2.1
      = selRows samples_indices y) ∧
    (((selRows samples_indices X : Mat) : Multiset (List ℚ)) = (X : Multiset (List ℚ))) ∧
    ((shuffle_step X y ground_truth samples_indices features_indices).1
      = selCols features_indices (selRows samples_indices X)) ∧
    ((((shuffle_step X y ground_truth samples_indices features_indices).1 : Mat) :
        Multiset (List ℚ))
      = Multiset.map (fun row => features_indices.map (fun j => row.getD j 0))
          (X : Multiset (List ℚ))) ∧
    ((shuffle_step X y ground_truth samples_indices features_indices).2.2
      = selRows features_indices ground_truth) ∧
    (∀ i j, i < samples_indices.length → j < features_indices.length →
      (((shuffle_step X y ground_truth samples_indices features_indices).1.getD i
          []).getD j 0)
        = ((selRows samples_indices X).getD i []).getD (features_indices.getD j 0) 0) ∧
    (∀ j, j < features_indices.length →
      (shuffle_step X y ground_truth samples_indices features_indices).2.2.getD j []
        = ground_truth.getD (features_indices.getD j 0) []) := by
  refine ⟨rfl, selRows_perm_multiset X samples_indices hsi, rfl, ?_, rfl, ?_, ?_⟩
  · have h1 : (shuffle_step X y ground_truth samples_indices features_indices).1
        = (selRows samples_indices X).map
          (fun row => features_indices.map (fun j => row.getD j 0)) := rfl
    rw [h1, ← Multiset.map_coe, selRows_perm_multiset X samples_indices hsi]
  · intro i j hi hj
    have hi' : i < (selRows samples_indices X).length := by
      simpa [selRows] using hi
    have h1 : (shuffle_step X y ground_truth samples_indices features_indices).1
        = (selRows samples_indices X).map
          (fun row => features_indices.map (fun j => row.getD j 0)) := rfl
    have e1 : (((selRows samples_indices X).map
          (fun row => features_indices.map (fun j => row.getD j 0))).getD i [])
        = features_indices.map
          (fun j => ((selRows samples_indices X).getD i []).getD j 0) := by
      rw [List.getD_eq_getElem _ _ (by simpa using hi'), List.getElem_map,
        List.getD_eq_getElem _ _ hi']
    rw [h1, e1, List.getD_eq_getElem _ _ (by simpa using hj), List.getElem_map,
      List.getD_eq_getElem _ _ hj]
  · intro j hj
    have h1 : (shuffle_step X y ground_truth samples_indices features_indices).2.2
        = features_indices.map (fun i => ground_truth.getD i []) := rfl
    rw [h1, List.getD_eq_getElem _ _ (by simpa using hj), List.getElem_map,
      List.getD_eq_getElem _ _ hj]

/-- Claim C7 amended witness: the amended shuffle properties at the
concrete instance `X = [[1, 2], [3, 4]]`, `y = [[5], [6]]`,
coefficients `[[7], [8]]`, sample permutation `[1, 0]`, feature
permutation `[1, 0]`. -/
theorem shuffle_step_spec_witness :
    ((shuffle_step [[1, 2], [3, 4]] [[5], [6]] [[7], [8]] [1, 0] [1, 0]).2.1
      = selRows [1, 0] [[5], [6]]) ∧
    (((selRows [1, 0] [[1, 2], [3, 4]] : Mat) : Multiset (List ℚ))
      = (([[1, 2], [3, 4]] : Mat) : Multiset (List ℚ))) ∧
    ((shuffle_step [[1, 2], [3, 4]] [[5], [6]] [[7], [8]] [1, 0] [1, 0]).1
      = selCols [1, 0] (selRows [1, 0] [[1, 2], [3, 4]])) ∧
    ((((shuffle_step [[1, 2], [3, 4]] [[5], [6]] [[7], [8]] [1, 0] [1, 0]).1 : Mat) :
        Multiset (List ℚ))
      = Multiset.map (fun row => [1, 0].map (fun j => row.getD j 0))
          (([[1, 2], [3, 4]] : Mat) : Multiset (List ℚ))) ∧
    ((shuffle_step [[1, 2], [3, 4]] [[5], [6]] [[7], [8]] [1, 0] [1, 0]).2.2
      = selRows [1, 0] [[7], [8]]) ∧
    (∀ i j, i < ([1, 0] : List ℕ).length → j < ([1, 0] : List ℕ).length →
      (((shuffle_step [[1, 2], [3, 4]] [[5], [6]] [[7], [8]] [1, 0] [1, 0]).1.getD i
          []).getD j 0)
        = ((selRows [1, 0] [[1, 2], [3, 4]]).getD i []).getD (([1, 0] : List ℕ).getD j 0)
            0) ∧
    (∀ j, j < ([1, 0] : List ℕ).length →
      (shuffle_step [[1, 2], [3, 4]] [[5], [6]] [[7], [8]] [1, 0] [1, 0]).2.2.getD j []
        = ([[7], [8]] : Mat).getD (([1, 0] : List ℕ).getD j 0) []) :=
  shuffle_step_spec [[1, 2], [3, 4]] [[5], [6]] [[7], [8]] [1, 0] [1, 0] (by decide)

/-- Claim C8: the singular-value profile is exactly
`(1 - tail_strength) * exp(-(i / effective_rank)^2)
 + tail_strength * exp(-0.1 * (i / effective_rank))`, and it is
non-negative for every index whenever `effective_rank > 0` and
`tail_strength ∈ [0, 1]`. -/
theorem singular_profile_spec (effective_rank tail_strength : ℝ) (i : ℕ)
    (her : 0 < effective_rank) (h0 : 0 ≤ tail_strength) (h1 : tail_strength ≤ 1) :
    singular_profile effective_rank tail_strength i
      = (1 - tail_strength) * Real.exp (-((i : ℝ) / effective_rank) ^ 2)
        + tail_strength * Real.exp (-0.1 * ((i : ℝ) / effective_rank)) ∧
    0 ≤ singular_profile effective_rank tail_strength i := by
  have hform : singular_profile effective_rank tail_strength i
      = (1 - tail_strength) * Real.exp (-((i : ℝ) / effective_rank) ^ 2)
        + tail_strength * Real.exp (-0.1 * ((i : ℝ) / effective_rank)) := by
    simp only [singular_profile]
    norm_num
  refine ⟨hform, ?_⟩
  rw [hform]
  have e1 : (0 : ℝ) ≤ (1 - tail_strength) * Real.exp (-((i : ℝ) / effective_rank) ^ 2) :=
    mul_nonneg (by linarith) (Real.exp_pos _).le
  have e2 : (0 : ℝ) ≤ tail_strength * Real.exp (-0.1 * ((i : ℝ) / effective_rank)) :=
    mul_nonneg h0 (Real.exp_pos _).le
  linarith

/-- Claim C8 witness: the profile formula and non-negativity at
`effective_rank = 1`, `tail_strength = 1/2`, `i = 0`. -/
theorem singular_profile_spec_witness :
    singular_profile 1 (1 / 2) 0
      = (1 - 1 / 2) * Real.exp (-(((0 : ℕ) : ℝ) / 1) ^ 2)
        + 1 / 2 * Real.exp (-0.1 * (((0 : ℕ) : ℝ) / 1)) ∧
    0 ≤ singular_profile 1 (1 / 2) 0 :=
  singular_profile_spec 1 (1 / 2) 0 (by norm_num) (by norm_num) (by norm_num)
